import Mathlib

/-!
Verification of the btcminer stratum mining client core.

This file gives a shallow embedding, in Lean 4, of the parts of the Go
sources that the specification's claims are about:

* `subscription.setDifficulty` (difficulty → 256-bit target, computed with
  Go `big.Float` arithmetic at the default precision of 53 bits);
* the mining worker loop of `job.miner` / `BTCMiner.miner` (the
  extraNonce2 × nonce sweep with its `uint32` loop guards, stop-flag
  checkpointing and the found-share checkpoint);
* `job.reachTarget` (big-endian byte comparison of hash against target);
* `restorePrevHashByteOrder`, the ntime hex round-trip of
  `newJob`/`newShare`, and the `mining.submit` error dispatch of
  `Client.handleRPCCall`.

Machine integers are modelled as `Nat` with explicit reduction modulo
`2 ^ 32`; Go `big.Float` values are modelled as exact rationals rounded
after every operation by `round53`; fallible operations return `Option`.
-/

set_option maxRecDepth 10000
set_option exponentiation.threshold 400

namespace BTCMiner

/-! ## Machine-integer helpers -/

/-- Value of the Go constant `0xffffffff`, the literal bound used by the
worker's loop guards `nonce <= 0xffffffff` and `extraNonce2 <= 0xffffffff`. -/
def UINT32MAX : ℕ := 0xffffffff

/-- Reduction of a natural number to the range of a Go `uint32`: every
`uint32` arithmetic result in the source is taken modulo `2 ^ 32`. -/
def u32 (x : ℕ) : ℕ := x % 2 ^ 32

/-! ## Rational model of Go `big.Float` arithmetic (precision 53)

`subscription.setDifficulty` computes the target with `math/big.Float`
values created by `big.NewFloat`, whose precision is 53 bits.  Every
`Mul`/`Add`/`Quo`/`Sub` therefore computes the exact result and rounds it
to 53 significant bits, to nearest, ties to even, with an unbounded
exponent.  We model a `big.Float` value by the exact rational it denotes
and each operation by exact rational arithmetic followed by `round53`.

The rational operations are written through `mkRat` and on the `num`/`den`
fields directly so that the kernel can evaluate them on concrete inputs
(the library's `Rat.mul` and friends are irreducible). -/

/-- Exact rational multiplication, written through `mkRat`. -/
def qmul (a b : ℚ) : ℚ := mkRat (a.num * b.num) (a.den * b.den)

/-- Exact rational addition, written through `mkRat`. -/
def qadd (a b : ℚ) : ℚ := mkRat (a.num * b.den + b.num * a.den) (a.den * b.den)

/-- Exact rational subtraction, written through `mkRat`. -/
def qsub (a b : ℚ) : ℚ := mkRat (a.num * b.den - b.num * a.den) (a.den * b.den)

/-- Exact rational division, written through `mkRat` (division by zero
yields zero; `setDifficulty` only divides by a positive difficulty). -/
def qdiv (a b : ℚ) : ℚ :=
  if b.num < 0 then mkRat (-(a.num * b.den)) (a.den * b.num.natAbs)
  else mkRat (a.num * b.den) (a.den * b.num.natAbs)

/-- Floor of a rational, computed with integer floor division. -/
def qfloor (q : ℚ) : ℤ := q.num.fdiv q.den

/-- Fuel-based binary logarithm: for `1 ≤ n ≤ fuel`, `nlog2Aux fuel n` is
`⌊log₂ n⌋`.  Structural recursion on the fuel keeps it kernel-evaluable
on large literals. -/
def nlog2Aux : ℕ → ℕ → ℕ
  | 0, _ => 0
  | fuel + 1, n => if 2 ≤ n then nlog2Aux fuel (n / 2) + 1 else 0

/-- Binary logarithm `⌊log₂ n⌋` for `n ≥ 1` (and `0` at `0`). -/
def nlog2 (n : ℕ) : ℕ := nlog2Aux n n

/-- The rational `2 ^ e` for an integer exponent `e`. -/
def pow2q (e : ℤ) : ℚ :=
  if 0 ≤ e then mkRat (Int.ofNat (2 ^ e.toNat)) 1 else mkRat 1 (2 ^ (-e).toNat)

/-- Floor of the binary logarithm of a positive rational: the unique `e`
with `2 ^ e ≤ q < 2 ^ (e + 1)`. -/
def ratLog2 (q : ℚ) : ℤ :=
  let d : ℤ := (nlog2 q.num.toNat : ℤ) - (nlog2 q.den : ℤ)
  if pow2q d ≤ q then d else d - 1

/-- Round a rational to the nearest integer, ties to the even integer. -/
def roundHalfEven (q : ℚ) : ℤ :=
  let f := qfloor q
  let r := qsub q (mkRat f 1)
  if r < mkRat 1 2 then f
  else if mkRat 1 2 < r then f + 1
  else if f % 2 = 0 then f else f + 1

/-- Round a positive rational to 53 significant bits (nearest, ties to
even): scale into `[2 ^ 52, 2 ^ 53)`, round to an integer mantissa, and
scale back. -/
def round53pos (q : ℚ) : ℚ :=
  let e := ratLog2 q
  qmul (mkRat (roundHalfEven (qmul q (pow2q (52 - e)))) 1) (pow2q (e - 52))

/-- Round a rational to the nearest 53-bit binary floating-point value
(round to nearest, ties to even, unbounded exponent), which is what every
arithmetic operation of Go's `big.Float` does at the default precision 53
used by `subscription.setDifficulty`. -/
def round53 (q : ℚ) : ℚ :=
  if q.num ≤ 0 then
    (if q.num = 0 then 0
     else mkRat (-(round53pos (mkRat (-q.num) q.den)).num)
       (round53pos (mkRat (-q.num) q.den)).den)
  else round53pos q

/-- Model of `big.Float.Mul` at precision 53. -/
def fmul (x y : ℚ) : ℚ := round53 (qmul x y)

/-- Model of `big.Float.Add` at precision 53. -/
def fadd (x y : ℚ) : ℚ := round53 (qadd x y)

/-- Model of `big.Float.Sub` at precision 53. -/
def fsub (x y : ℚ) : ℚ := round53 (qsub x y)

/-- Model of `big.Float.Quo` at precision 53. -/
def fquo (x y : ℚ) : ℚ := round53 (qdiv x y)

/-- Loop body of `bigFloatExp`: perform `n` further `Mul` operations. -/
def mulLoop (f : ℚ) : ℚ → ℕ → ℚ
  | acc, 0 => acc
  | acc, n + 1 => mulLoop f (fmul acc f) n

/-- Model of `bigFloatExp` from `util.go`: starting from a copy of `f`,
multiply by `f` once for each `i` in `1 ..< exp` (so `exp - 1` times). -/
def bigFloatExp (f : ℚ) (exp : ℕ) : ℚ := mulLoop f f (exp - 1)

/-- Model of `big.Float.Int`: truncation toward zero. -/
def ftrunc (q : ℚ) : ℤ :=
  if q.num < 0 then -((-q.num).fdiv q.den) else q.num.fdiv q.den

/-- Model of the target computation of `subscription.setDifficulty`:
`none` models the "Difficulty must be non-negative" error (the stored
target is unchanged); for difficulty `0` the stored `big.Int` target is
`2 ^ 256 - 1`; otherwise the `big.Float` pipeline
`bigFloatExp(2, 256-64) * 0xffff0000 + 1`, divided by the difficulty,
minus `0.5`, truncated to a `big.Int`. -/
def setDifficultyTarget (difficulty : ℚ) : Option ℤ :=
  if difficulty < 0 then none
  else if difficulty = 0 then some (Int.ofNat (2 ^ 256 - 1))
  else
    some (ftrunc (fsub (fquo (fadd (fmul (bigFloatExp (mkRat 2 1) (256 - 64))
      (mkRat 0xffff0000 1)) (mkRat 1 1)) difficulty) (mkRat 1 2)))

/-- Big-endian `len`-byte encoding of a natural number below
`256 ^ len`; byte `i` is `n / 256 ^ (len - 1 - i) % 256`. -/
def beBytes (len n : ℕ) : List ℕ :=
  (List.range len).map fun i => n / 256 ^ (len - 1 - i) % 256

/-- Big-endian 32-byte encoding of a natural number below `2 ^ 256`. -/
def beBytes32 (n : ℕ) : List ℕ := beBytes 32 n

/-- Number of digits `%x` prints for a natural number: one digit for `0`,
otherwise `⌊log₁₆ n⌋ + 1 = ⌊log₂ n⌋ / 4 + 1`. -/
def hexLen (n : ℕ) : ℕ := if n = 0 then 1 else nlog2 n / 4 + 1

/-- The byte slice a later `newJob` decodes from the stored target hex
string `fmt.Sprintf("%064x", target)`: the string has
`max 64 (hexLen n)` digits (`%064x` pads *to at least* 64 digits and
prints more for targets of 2 ^ 256 and above); `hex.DecodeString` fails
on an odd digit count (`none`, killing the job build), otherwise yields
one big-endian byte per digit pair. -/
def storedTargetBytes (n : ℕ) : Option (List ℕ) :=
  if max 64 (hexLen n) % 2 = 0 then some (beBytes (max 64 (hexLen n) / 2) n)
  else none

/-- The stored target of `subscription.setDifficulty`, as the bytes a job
later decodes from the stored hex string (the computed target is never
negative, so `Int.toNat` is exact). -/
def targetBytes (difficulty : ℚ) : Option (List ℕ) :=
  (setDifficultyTarget difficulty).bind fun t => storedTargetBytes t.toNat

/-- Reference value taken from the specification's words: the exact
rational arithmetic target `floor((0xffff0000 · 2 ^ 192 + 1)/diff − 0.5)`. -/
def specExactTarget (d : ℚ) : ℤ := ⌊(0xffff0000 * 2 ^ 192 + 1 : ℚ) / d - 1 / 2⌋

/-- The exact integer `0xffff0000 · 2 ^ 192 + 1` as a rational. -/
def diff1Numerator : ℚ := mkRat (Int.ofNat (0xffff0000 * 2 ^ 192 + 1)) 1

/-- Reference value for the amended claim: the same pipeline with every
intermediate result rounded to 53 bits, written directly as
`trunc(R₅₃(R₅₃(R₅₃(0xffff0000 · 2 ^ 192 + 1) / d) − 0.5))`. -/
def targetFloat53 (d : ℚ) : ℤ :=
  ftrunc (fsub (fquo (round53 diff1Numerator) d) (mkRat 1 2))

/-- A rational that is exactly representable as a Go `float64` mantissa
value (the domain `setDifficulty` actually receives; exponent range is not
modelled as it is irrelevant to the claims). -/
def isFloat53 (q : ℚ) : Prop :=
  ∃ m e : ℤ, m.natAbs ≤ 2 ^ 53 ∧ q = qmul (mkRat m 1) (pow2q e)

/-! ## The mining worker loop

`job.miner` (equivalently `BTCMiner.miner`) runs, per worker, the loops

```
for extraNonce2 := params.extraNonce2; extraNonce2 <= 0xffffffff; extraNonce2++ {
    for nonce := params.nonce; nonce <= 0xffffffff; nonce += uint32(nonceStride) {
        if stop { store checkpoint (extraNonce2, nonce); return }
        hash; if reachTarget { ... share ... return }
    }
}
```

`minerTrace N startNonce (e2, nonce) fuel` is the list of `(extraNonce2,
nonce)` pairs the worker hashes in its first `fuel` loop iterations, for a
run in which the stop flag is never set and the target is never reached
(e.g. an all-zero target, which `reachTarget` can never satisfy).  Both
loop guards are embedded as written in the source: a comparison of the
current `uint32` value against `0xffffffff`, with exits for the guard
being false.  `startNonce` is `params.nonce`, the inner loop's
(re-)initialisation value. -/

/-- Visit trace of one worker of `job.miner`, stop flag never set, target
never reached, truncated to `fuel` loop iterations. -/
def minerTrace (N startNonce : ℕ) : ℕ × ℕ → ℕ → List (ℕ × ℕ)
  | _, 0 => []
  | (e2, nonce), fuel + 1 =>
    if nonce ≤ UINT32MAX then
      (e2, nonce) :: minerTrace N startNonce (e2, u32 (nonce + u32 N)) fuel
    else
      if u32 (e2 + 1) ≤ UINT32MAX then
        minerTrace N startNonce (u32 (e2 + 1), startNonce) fuel
      else []

/-- Same worker loop with the stop flag raised before iteration
`stopAfter`: the result is the visit trace together with the checkpoint
stored in `minersParams` when the worker observes the flag (the current
`(extraNonce2, nonce)`, not yet hashed), `none` if the run was truncated
by fuel before the flag was observed. -/
def minerTraceStop (N startNonce : ℕ) :
    ℕ × ℕ → ℕ → ℕ → List (ℕ × ℕ) × Option (ℕ × ℕ)
  | _, _, 0 => ([], none)
  | (e2, nonce), stopAfter, fuel + 1 =>
    if nonce ≤ UINT32MAX then
      match stopAfter with
      | 0 => ([], some (e2, nonce))
      | t + 1 =>
        let r := minerTraceStop N startNonce (e2, u32 (nonce + u32 N)) t fuel
        ((e2, nonce) :: r.1, r.2)
    else
      if u32 (e2 + 1) ≤ UINT32MAX then
        minerTraceStop N startNonce (u32 (e2 + 1), startNonce) stopAfter fuel
      else ([], none)

/-- Checkpoint stored by `job.miner` after it finds a share at
`(extraNonce2, nonce)` with stride `N`:
`nextNonce := nonce + uint32(N)`; if `nextNonce < nonce` (wrap) then
`extraNonce2++`; store `(extraNonce2, nextNonce)`. -/
def minerFoundCheckpoint (N e2 nonce : ℕ) : ℕ × ℕ :=
  (if u32 (nonce + u32 N) < nonce then u32 (e2 + 1) else e2, u32 (nonce + u32 N))

/-! ## Target comparison -/

/-- Unsigned big-endian integer value of a byte string. -/
def beVal : List ℕ → ℕ
  | [] => 0
  | b :: rest => b * 256 ^ rest.length + beVal rest

/-- Model of `job.reachTarget`: walk the hash from index `0`, comparing
byte by byte against the target; `none` models the Go index-out-of-range
panic on `j.target[i]` when the target is shorter than the hash. -/
def reachTarget (target blockHash : List ℕ) : Option Bool :=
  match blockHash, target with
  | [], _ => some false
  | _ :: _, [] => none
  | hb :: hTail, tb :: tTail =>
    if hb < tb then some true
    else if tb < hb then some false
    else reachTarget tTail hTail

/-! ## Byte and hex utilities -/

/-- Index map of `restorePrevHashByteOrder`: the copy loop writes
`restored[len-i-4+r] = prevHash[i+r]` for `i = 0, 4, …` and `r < 4`, so
output index `j` reads input index `len - 4 - 4*(j/4) + j%4`. -/
def restoreIdx (len j : ℕ) : ℕ := len - 4 - 4 * (j / 4) + j % 4

/-- Model of `restorePrevHashByteOrder` from `util.go`: consecutive 4-byte
words are moved end-for-end, bytes inside each word kept in order. -/
def restorePrevHashByteOrder (l : List ℕ) : List ℕ :=
  (List.range l.length).map fun j => l.getD (restoreIdx l.length j) 0

/-- Model of `reverseBytesCopy` from `util.go`. -/
def reverseBytesCopy (l : List ℕ) : List ℕ := l.reverse

/-- Value of one hex digit, accepting the same characters as Go's
`encoding/hex` decoder. -/
def hexDigitVal (c : Char) : Option ℕ :=
  if '0' ≤ c ∧ c ≤ '9' then some (c.toNat - 48)
  else if 'a' ≤ c ∧ c ≤ 'f' then some (c.toNat - 97 + 10)
  else if 'A' ≤ c ∧ c ≤ 'F' then some (c.toNat - 65 + 10)
  else none

/-- Model of `hex.DecodeString`: two hex digits per byte, an error on an
odd-length string or a non-hex character. -/
def hexDecode : List Char → Option (List ℕ)
  | [] => some []
  | [_] => none
  | c1 :: c2 :: rest =>
    match hexDigitVal c1, hexDigitVal c2, hexDecode rest with
    | some hi, some lo, some bs => some ((16 * hi + lo) :: bs)
    | _, _, _ => none

/-- The lowercase hex digit character with value `n < 16`: `0`-`9` are
code points 48-57 and `a`-`f` are 97-102. -/
def hexDigitChar (n : ℕ) : Char :=
  if n < 10 then Char.ofNat (48 + n) else Char.ofNat (87 + n)

/-- Model of `hex.EncodeToString`, lowercase. -/
def hexEncode (bs : List ℕ) : List Char :=
  (bs.map fun b => [hexDigitChar (b / 16 % 16), hexDigitChar (b % 16)]).flatten

/-- Model of the target handling of `newJob`: the target hex string from
the subscription is decoded, with no validation of its length. -/
def newJobTarget (s : List Char) : Option (List ℕ) := hexDecode s

/-- The decoded `ntime` field a job stores: `newJob` hex-decodes
`p.ntime` and reverses the bytes in place. -/
def jobNtime (ntimeHex : List Char) : Option (List ℕ) :=
  (hexDecode ntimeHex).map reverseBytesCopy

/-- The `Ntime` field of a share built by `newShare` from a job's stored
`ntime` bytes: `hex.EncodeToString(reverseBytesCopy(ntime))`. -/
def shareNtime (ntime : List ℕ) : List Char := hexEncode (reverseBytesCopy ntime)

/-! ## Submit-response dispatch -/

/-- Outcome of `Client.handleRPCCall` for a `mining.submit` response:
start a new job from the latest remembered params, resume the current job,
or fall through (successful submit). -/
inductive SubmitAction where
  | newJobFromLatest
  | continueJob
  | noAction
deriving DecidableEq

/-- The Go constant `errCodeJobNotFound = 21`. -/
def errCodeJobNotFound : ℕ := 21

/-- Model of the `methodSubmit` arm of `Client.handleRPCCall`: the
response carries a result and an optional error `(code, message)`; only
the error is inspected. -/
def handleSubmitResponse (result : Bool) (error : Option (ℕ × String)) :
    SubmitAction :=
  match result, error with
  | _, some (code, _) =>
    if code = errCodeJobNotFound then SubmitAction.newJobFromLatest
    else SubmitAction.continueJob
  | _, none => SubmitAction.noAction


/-! ## Helper lemmas for the difficulty → target arithmetic (C1) -/

theorem mulLoop_add (f acc : ℚ) (m n : ℕ) :
    mulLoop f acc (m + n) = mulLoop f (mulLoop f acc m) n := by
  induction m generalizing acc with
  | zero => rw [Nat.zero_add]; rfl
  | succ m ih =>
    have h : m + 1 + n = (m + n) + 1 := by omega
    rw [h, mulLoop, mulLoop, ← ih]

theorem mulLoop95 :
    mulLoop (mkRat 2 1) (mkRat 2 1) 95 = mkRat (Int.ofNat (79228162514264337593543950336)) 1 := by
  decide

theorem mulLoop96 :
    mulLoop (mkRat 2 1) (mkRat (Int.ofNat (79228162514264337593543950336)) 1) 96 =
      mkRat (Int.ofNat (6277101735386680763835789423207666416102355444464034512896)) 1 := by
  decide

/-- The Go loop `bigFloatExp(big.NewFloat(2), 256-64)` computes exactly
`2 ^ 192`: every intermediate product is a power of two, on which
rounding to 53 bits is the identity. -/
theorem bigFloatExp192 :
    bigFloatExp (mkRat 2 1) (256 - 64) = mkRat (Int.ofNat (6277101735386680763835789423207666416102355444464034512896)) 1 := by
  have h : (256 - 64 : ℕ) - 1 = 95 + 96 := by norm_num
  rw [bigFloatExp, h, mulLoop_add, mulLoop95, mulLoop96]

/-- The first three `big.Float` steps of `setDifficulty` — `2 ^ 192`,
`Mul 0xffff0000`, `Add 1` — produce the 53-bit rounding of
`0xffff0000 · 2 ^ 192 + 1`, in which the trailing `+ 1` is lost. -/
theorem setDifficulty_numerator :
    fadd (fmul (bigFloatExp (mkRat 2 1) (256 - 64)) (mkRat 0xffff0000 1))
      (mkRat 1 1) = round53 diff1Numerator := by
  rw [bigFloatExp192]
  decide

/-- C1, counterexample: at difficulty `3` the code's stored target is one
more than the specified exact-rational value
`floor((0xffff0000 · 2 ^ 192 + 1)/3 − 0.5)`, so the stored 32 bytes are
not the big-endian encoding of the specified value. -/
theorem setDifficulty_exact_counterexample :
    setDifficultyTarget 3 = some 8986511763670436497718825448241330445336966246191388028712591032320 ∧
    specExactTarget 3 = 8986511763670436497718825448241330445336966246191388028712591032319 ∧
    targetBytes 3 ≠ some (beBytes32 (specExactTarget 3).toNat) := by
  have hcode : setDifficultyTarget 3 = some 8986511763670436497718825448241330445336966246191388028712591032320 := by
    rw [setDifficultyTarget, setDifficulty_numerator]
    decide
  have hexact : specExactTarget 3 = 8986511763670436497718825448241330445336966246191388028712591032319 := by
    rw [specExactTarget, Int.floor_eq_iff]
    norm_num
  refine ⟨hcode, hexact, ?_⟩
  rw [targetBytes, hcode, hexact]
  decide



/-- Bound for `nlog2Aux`: a number below `2 ^ k` has binary logarithm
below `k` (given enough fuel). -/
theorem nlog2Aux_lt : ∀ fuel n k : ℕ, n ≤ fuel → 1 ≤ k → n < 2 ^ k →
    nlog2Aux fuel n < k := by
  intro fuel
  induction fuel with
  | zero =>
    intro n k _ hk _
    rw [nlog2Aux]
    omega
  | succ fuel ih =>
    intro n k hn hk hnk
    rw [nlog2Aux]
    by_cases h2 : 2 ≤ n
    · rw [if_pos h2]
      cases k with
      | zero => omega
      | succ k =>
        cases k with
        | zero =>
          have : n < 2 := by simpa using hnk
          omega
        | succ k =>
          have hp : (2 : ℕ) ^ (k + 1 + 1) = 2 ^ (k + 1) * 2 := pow_succ 2 (k + 1)
          have hrec := ih (n / 2) (k + 1) (by omega) (by omega) (by omega)
          omega
    · rw [if_neg h2]
      omega

/-- A target below `2 ^ 256` prints at most 64 hex digits. -/
theorem hexLen_le_64 (n : ℕ) (h : n < 2 ^ 256) : hexLen n ≤ 64 := by
  rw [hexLen]
  by_cases h0 : n = 0
  · rw [if_pos h0]
    omega
  · rw [if_neg h0]
    have := nlog2Aux_lt n n 256 le_rfl (by norm_num) h
    rw [nlog2]
    omega

/-- For a target below `2 ^ 256`, `%064x` pads to exactly 64 digits and
the decoded stored target is the 32-byte big-endian encoding. -/
theorem storedTargetBytes_of_lt (n : ℕ) (h : n < 2 ^ 256) :
    storedTargetBytes n = some (beBytes32 n) := by
  rw [storedTargetBytes, Nat.max_eq_left (hexLen_le_64 n h),
    if_pos (by norm_num), beBytes32]

/-- C1 (amended): `setDifficultyTarget` rejects negative difficulty and
changes nothing; difficulty `0` stores `2 ^ 256 - 1` (32 bytes of `0xff`);
for positive (float-representable) difficulty the stored target is
`trunc(R53(R53(R53(0xffff0000 * 2 ^ 192 + 1) / diff) - 0.5))` where `R53`
rounds to 53 significant bits (nearest, ties to even) — the `big.Float`
pipeline at Go's default precision, not exact rational arithmetic — and,
whenever that value is below `2 ^ 256`, the stored bytes are its 32-byte
big-endian left-zero-padded encoding (above `2 ^ 256` the stored `%064x`
string is longer than 64 digits, see
`setDifficulty_small_difficulty_long_target`). -/
theorem setDifficulty_float53 :
    (∀ d : ℚ, d < 0 → setDifficultyTarget d = none) ∧
    (setDifficultyTarget 0 = some (Int.ofNat (2 ^ 256 - 1)) ∧
      targetBytes 0 = some (List.replicate 32 255)) ∧
    (∀ d : ℚ, 0 < d → isFloat53 d →
      setDifficultyTarget d = some (targetFloat53 d) ∧
      ((targetFloat53 d).toNat < 2 ^ 256 →
        targetBytes d = some (beBytes32 (targetFloat53 d).toNat))) := by
  refine ⟨fun d hd => ?_, ⟨?_, ?_⟩, fun d hd _ => ?_⟩
  · rw [setDifficultyTarget, if_pos hd]
  · decide
  · decide
  · have h : setDifficultyTarget d = some (targetFloat53 d) := by
      rw [setDifficultyTarget, if_neg (not_lt.mpr hd.le), if_neg hd.ne',
        setDifficulty_numerator, targetFloat53]
    refine ⟨h, fun hlt => ?_⟩
    rw [targetBytes, h]
    exact storedTargetBytes_of_lt _ hlt

/-- Witness for `setDifficulty_float53` at difficulty `-1` and `3` (the
target at difficulty `3` is below `2 ^ 256`, so its stored bytes are the
32-byte encoding). -/
theorem setDifficulty_float53_witness :
    setDifficultyTarget (-1) = none ∧
    setDifficultyTarget 3 = some (targetFloat53 3) ∧
    targetBytes 3 = some (beBytes32 (targetFloat53 3).toNat) :=
  ⟨setDifficulty_float53.1 (-1) (by norm_num),
   (setDifficulty_float53.2.2 3 (by norm_num) ⟨3, 0, by decide, by decide⟩).1,
   (setDifficulty_float53.2.2 3 (by norm_num) ⟨3, 0, by decide, by decide⟩).2
     (by decide)⟩

/-- At difficulty `2 ^ (-40)` the computed target is
`0xffff · 2 ^ 248 ≥ 2 ^ 256`: the stored `%064x` string has 66 digits and
the job decodes 33 bytes `ff ff 00 …`, not a 32-byte target. -/
theorem setDifficulty_small_difficulty_long_target :
    setDifficultyTarget (mkRat 1 (2 ^ 40)) =
      some (Int.ofNat (0xffff * 2 ^ 248)) ∧
    targetBytes (mkRat 1 (2 ^ 40)) = some (beBytes 33 (0xffff * 2 ^ 248)) ∧
    (beBytes 33 (0xffff * 2 ^ 248)).length = 33 := by
  have h : setDifficultyTarget (mkRat 1 (2 ^ 40)) =
      some (Int.ofNat (0xffff * 2 ^ 248)) := by
    rw [setDifficultyTarget, setDifficulty_numerator]
    decide
  refine ⟨h, ?_, by decide⟩
  rw [targetBytes, h]
  decide


/-! ## Helper lemmas for the worker loop (C2, C3, C5, C6) -/

/-- The inner loop guard `nonce <= 0xffffffff` is true for every `uint32`
value, so the guarded exit from the inner loop is unreachable. -/
theorem u32_le_UINT32MAX (x : ℕ) : u32 x ≤ UINT32MAX := by
  have h : u32 x < 2 ^ 32 := Nat.mod_lt _ (by norm_num)
  unfold UINT32MAX
  omega

/-- A worker that is never stopped and never finds a share is still
hashing after any number of iterations: the trace length equals the fuel. -/
theorem minerTrace_length (N p : ℕ) : ∀ (fuel e2 n : ℕ), n < 2 ^ 32 →
    (minerTrace N p (e2, n) fuel).length = fuel := by
  intro fuel
  induction fuel with
  | zero => intro e2 n _; rfl
  | succ fuel ih =>
    intro e2 n h
    have h2 : u32 (n + u32 N) < 2 ^ 32 := Nat.mod_lt _ (by norm_num)
    rw [minerTrace, if_pos (show n ≤ UINT32MAX by unfold UINT32MAX; omega)]
    rw [List.length_cons, ih _ _ h2]

/-- A worker that is never stopped and never finds a share never leaves
its starting `extraNonce2`. -/
theorem minerTrace_e2 (N p : ℕ) : ∀ (fuel e2 n : ℕ), n < 2 ^ 32 →
    ∀ q ∈ minerTrace N p (e2, n) fuel, q.1 = e2 := by
  intro fuel
  induction fuel with
  | zero => intro e2 n _ q hq; cases hq
  | succ fuel ih =>
    intro e2 n h q hq
    rw [minerTrace, if_pos (show n ≤ UINT32MAX by unfold UINT32MAX; omega)] at hq
    rcases List.mem_cons.mp hq with h1 | h1
    · rw [h1]
    · exact ih e2 _ (Nat.mod_lt _ (by norm_num)) q h1

/-- The `j`-th hash of a never-stopped worker is at its starting
`extraNonce2` and at nonce `(n + j * (N mod 2^32)) mod 2^32`: the nonce
wraps around modulo `2 ^ 32` instead of ending the inner loop. -/
theorem minerTrace_get (N p : ℕ) : ∀ (fuel j e2 n : ℕ), n < 2 ^ 32 → j < fuel →
    (minerTrace N p (e2, n) fuel)[j]? = some (e2, u32 (n + j * u32 N)) := by
  intro fuel
  induction fuel with
  | zero => intro j e2 n _ hj; exact absurd hj (Nat.not_lt_zero j)
  | succ fuel ih =>
    intro j e2 n h hj
    rw [minerTrace, if_pos (show n ≤ UINT32MAX by unfold UINT32MAX; omega)]
    cases j with
    | zero =>
      rw [List.getElem?_cons_zero]
      have : u32 (n + 0 * u32 N) = n := by
        rw [Nat.zero_mul, Nat.add_zero]
        exact Nat.mod_eq_of_lt h
      rw [this]
    | succ j =>
      have h2 : u32 (n + u32 N) < 2 ^ 32 := Nat.mod_lt _ (by norm_num)
      rw [List.getElem?_cons_succ, ih j e2 _ h2 (by omega)]
      have : u32 (u32 (n + u32 N) + j * u32 N) = u32 (n + (j + 1) * u32 N) := by
        unfold u32
        rw [Nat.mod_add_mod, Nat.succ_mul, ← Nat.add_assoc, Nat.add_right_comm]
      rw [this]

/-- C2 (code bug): the inner loop guard compares a `uint32` nonce with
`0xffffffff` and is therefore always true; the worker neither terminates
its inner loop at an overflow nor advances `extraNonce2` — even after more
iterations than the whole nonce space it is still hashing at
`extraNonce2 = 0`, so the sweep is not a terminating enumeration of
`extraNonce2 × nonce`. -/
theorem miner_never_advances_extraNonce2 :
    (minerTrace 3 0 (0, 0) 4294967297).length = 4294967297 ∧
    ∀ q ∈ minerTrace 3 0 (0, 0) 4294967297, q.1 = 0 :=
  ⟨minerTrace_length 3 0 4294967297 0 0 (by norm_num),
   minerTrace_e2 3 0 4294967297 0 0 (by norm_num)⟩

/-- C5 (code bug): with stride `3`, worker `0` (fresh start at nonce `0`)
eventually wraps modulo `2 ^ 32` and visits nonce `1` at the same
`extraNonce2` — a nonce outside its residue class, and the first nonce
worker `1` visits, so the per-worker visit sets are neither the residue
classes modulo the stride nor pairwise disjoint. -/
theorem miner_stride_partition_violated :
    (minerTrace 3 0 (0, 0) 2863311532)[2863311531]? = some (0, 1) ∧
    1 % 3 ≠ 0 ∧
    (minerTrace 3 1 (0, 1) 1)[0]? = some (0, 1) := by
  refine ⟨?_, by norm_num, ?_⟩
  · rw [minerTrace_get 3 0 2863311532 2863311531 0 0 (by norm_num) (by norm_num)]
    norm_num [u32]
  · rw [minerTrace_get 3 1 1 0 0 1 (by norm_num) (by norm_num)]
    norm_num [u32]

/-- C6 (code bug): one worker (`k = 0`, stride `1`) stopped after hashing
nonces `0..4` checkpoints `(extraNonce2, nonce) = (0, 5)` and, on resume,
restarts exactly there — but because the inner loop never ends, the
resumed run wraps modulo `2 ^ 32` and hashes `(0, 0)` again, a position it
had already hashed before the stop. -/
theorem miner_resume_revisits_nonce :
    (minerTraceStop 1 0 (0, 0) 5 10).2 = some (0, 5) ∧
    (0, 0) ∈ (minerTraceStop 1 0 (0, 0) 5 10).1 ∧
    (minerTrace 1 5 (0, 5) 4294967292)[4294967291]? = some (0, 0) := by
  refine ⟨by decide, by decide, ?_⟩
  rw [minerTrace_get 1 5 4294967292 4294967291 0 5 (by norm_num) (by norm_num)]
  norm_num [u32]

/-- C3, counterexample: a worker with start residue `0` and stride `3`
finding a share at nonce `4294967295` (which is `0 mod 3`) stores the
wrapped nonce `2`, not its start residue `0`. -/
theorem minerFoundCheckpoint_counterexample :
    minerFoundCheckpoint 3 0 4294967295 = (1, 2) ∧
    4294967295 % 3 = 0 ∧ (2 : ℕ) ≠ 0 := by
  decide

/-- C3 (amended): after a share at `(e2, nonce)` with stride `N`, the
stored checkpoint is `(e2, nonce + N)` when `nonce + N` does not wrap and
`(e2 + 1, nonce + N - 2 ^ 32)` — the wrapped value, not the worker's start
residue — when it wraps. -/
theorem minerFoundCheckpoint_spec :
    ∀ N e2 nonce : ℕ, 1 ≤ N → N < 2 ^ 32 → nonce < 2 ^ 32 →
      minerFoundCheckpoint N e2 nonce =
        if nonce + N < 2 ^ 32 then (e2, nonce + N)
        else (u32 (e2 + 1), nonce + N - 2 ^ 32) := by
  intro N e2 nonce h1 h2 h3
  unfold minerFoundCheckpoint u32
  rw [Nat.mod_eq_of_lt h2]
  by_cases h : nonce + N < 2 ^ 32
  · rw [Nat.mod_eq_of_lt h, if_neg (show ¬(nonce + N < nonce) by omega), if_pos h]
  · have hm : (nonce + N) % 2 ^ 32 = nonce + N - 2 ^ 32 := by omega
    rw [hm, if_pos (show nonce + N - 2 ^ 32 < nonce by omega), if_neg h]

/-- Witness for `minerFoundCheckpoint_spec`: a non-wrapping share at
nonce `100` with stride `4` checkpoints `(e2, 104)`. -/
theorem minerFoundCheckpoint_spec_witness :
    minerFoundCheckpoint 4 7 100 = (7, 104) :=
  (minerFoundCheckpoint_spec 4 7 100 (by norm_num) (by norm_num)
    (by norm_num)).trans (by norm_num)


/-! ## Helper lemmas for the target comparison (C4, C10) -/

/-- A byte string with bytes below 256 denotes a value below
`256 ^ length`. -/
theorem beVal_lt_pow (l : List ℕ) (hb : ∀ b ∈ l, b < 256) :
    beVal l < 256 ^ l.length := by
  induction l with
  | nil => simp [beVal]
  | cons b rest ih =>
    have h1 : b < 256 := hb b (List.mem_cons_self b rest)
    have h2 : beVal rest < 256 ^ rest.length :=
      ih fun x hx => hb x (List.mem_cons_of_mem b hx)
    rw [beVal, List.length_cons, pow_succ]
    calc b * 256 ^ rest.length + beVal rest
        < b * 256 ^ rest.length + 256 ^ rest.length := by omega
      _ = (b + 1) * 256 ^ rest.length := by ring
      _ ≤ 256 * 256 ^ rest.length := Nat.mul_le_mul_right _ (by omega)
      _ = 256 ^ rest.length * 256 := by ring

/-- A smaller leading byte forces a smaller big-endian value (given the
tails have equal length and the other tail is in range). -/
theorem beVal_head_lt (hb tb : ℕ) (hr tr : List ℕ) (hlen : tr.length = hr.length)
    (h1 : hb < tb) (hbound : beVal hr < 256 ^ hr.length) :
    beVal (hb :: hr) < beVal (tb :: tr) := by
  rw [beVal, beVal, hlen]
  calc hb * 256 ^ hr.length + beVal hr
      < hb * 256 ^ hr.length + 256 ^ hr.length := by omega
    _ = (hb + 1) * 256 ^ hr.length := by ring
    _ ≤ tb * 256 ^ hr.length := Nat.mul_le_mul_right _ (by omega)
    _ ≤ tb * 256 ^ hr.length + beVal tr := Nat.le_add_right _ _

/-- On equal-length in-range byte strings, `reachTarget` returns
`some true` exactly when the hash's big-endian value is below the
target's. -/
theorem reachTarget_true_iff (t h : List ℕ) (hlen : t.length = h.length)
    (hbt : ∀ b ∈ t, b < 256) (hbh : ∀ b ∈ h, b < 256) :
    (reachTarget t h = some true ↔ beVal h < beVal t) := by
  induction h generalizing t with
  | nil =>
    cases t with
    | nil => simp [reachTarget, beVal]
    | cons tb tr => simp at hlen
  | cons hb hr ih =>
    cases t with
    | nil => simp at hlen
    | cons tb tr =>
      have hlen' : tr.length = hr.length := by simpa using hlen
      have hbt' : ∀ b ∈ tr, b < 256 := fun x hx => hbt x (List.mem_cons_of_mem tb hx)
      have hbh' : ∀ b ∈ hr, b < 256 := fun x hx => hbh x (List.mem_cons_of_mem hb hx)
      rw [reachTarget]
      by_cases h1 : hb < tb
      · rw [if_pos h1]
        have hv := beVal_head_lt hb tb hr tr hlen' h1 (beVal_lt_pow hr hbh')
        exact ⟨fun _ => hv, fun _ => rfl⟩
      · by_cases h2 : tb < hb
        · rw [if_neg h1, if_pos h2]
          constructor
          · intro hfalse; cases hfalse
          · intro hlt
            have hgt : beVal (tb :: tr) < beVal (hb :: hr) :=
              beVal_head_lt tb hb tr hr hlen'.symm h2 (beVal_lt_pow tr hbt')
            exact absurd hlt (Nat.lt_asymm hgt)
        · have heq : hb = tb := by omega
          rw [if_neg h1, if_neg h2, ih tr hlen' hbt' hbh']
          rw [beVal, beVal, heq, hlen', Nat.add_lt_add_iff_left]

/-- With a hash no longer than the target, `reachTarget` cannot hit an
out-of-range index and always returns a value. -/
theorem reachTarget_some (t h : List ℕ) (hlen : h.length ≤ t.length) :
    ∃ b, reachTarget t h = some b := by
  induction h generalizing t with
  | nil =>
    cases t with
    | nil => exact ⟨false, rfl⟩
    | cons tb tr => exact ⟨false, rfl⟩
  | cons hb hr ih =>
    cases t with
    | nil => simp at hlen
    | cons tb tr =>
      rw [reachTarget]
      by_cases h1 : hb < tb
      · exact ⟨true, by rw [if_pos h1]⟩
      · by_cases h2 : tb < hb
        · exact ⟨false, by rw [if_neg h1, if_pos h2]⟩
        · rw [if_neg h1, if_neg h2]
          exact ih tr (by simpa using hlen)

/-- Comparing a byte string against itself returns `some false`. -/
theorem reachTarget_self (t : List ℕ) : reachTarget t t = some false := by
  induction t with
  | nil => rfl
  | cons tb tr ih => rw [reachTarget, if_neg (lt_irrefl tb), if_neg (lt_irrefl tb), ih]

/-- C4: for a 32-byte target and a 32-byte hash of in-range bytes,
`reachTarget` returns `some true` exactly when the unsigned big-endian
value of the hash is strictly below that of the target; on a hash equal
to the target it returns `some false`. -/
theorem reachTarget_iff_lt :
    ∀ t h : List ℕ, t.length = 32 → h.length = 32 →
      (∀ b ∈ t, b < 256) → (∀ b ∈ h, b < 256) →
      ((reachTarget t h = some true ↔ beVal h < beVal t) ∧
        reachTarget t t = some false) :=
  fun t h ht hh hbt hbh =>
    ⟨reachTarget_true_iff t h (ht.trans hh.symm) hbt hbh, reachTarget_self t⟩

/-- Witness for `reachTarget_iff_lt`: target `00 … 00 05`, hash all
zeroes. -/
theorem reachTarget_iff_lt_witness :
    reachTarget (List.replicate 31 0 ++ [5]) (List.replicate 32 0) = some true :=
  ((reachTarget_iff_lt (List.replicate 31 0 ++ [5]) (List.replicate 32 0)
    (by decide) (by decide) (by decide) (by decide)).1).mpr (by decide)

/-- C10: `newJob` accepts a target of any length — in particular the
empty target a subscription holds before any `mining.set_difficulty` —
while `reachTarget` dereferences `target[i]` for every index of the
32-byte hash, so it panics (returns `none` in the model) on the empty
target and is total only when the decoded target is at least as long as
the hash. -/
theorem reachTarget_requires_full_target :
    newJobTarget [] = some [] ∧
    (∀ h : List ℕ, h.length = 32 → reachTarget [] h = none) ∧
    (∀ t h : List ℕ, h.length ≤ t.length → ∃ b, reachTarget t h = some b) := by
  refine ⟨rfl, fun h hh => ?_, reachTarget_some⟩
  cases h with
  | nil => simp at hh
  | cons b rest => rfl

/-- Witness for `reachTarget_requires_full_target`: an all-zero 32-byte
hash against the empty target panics; against a 1-byte target with a
1-byte hash it returns a value. -/
theorem reachTarget_requires_full_target_witness :
    reachTarget [] (List.replicate 32 0) = none ∧
    ∃ b, reachTarget [7] [3] = some b :=
  ⟨reachTarget_requires_full_target.2.1 (List.replicate 32 0) (by decide),
   reachTarget_requires_full_target.2.2 [7] [3] (by decide)⟩

/-! ## Lemmas for the prev-hash word-order restoration (C7) -/

/-- The restoration preserves the length. -/
theorem restore_length (l : List ℕ) :
    (restorePrevHashByteOrder l).length = l.length := by
  simp [restorePrevHashByteOrder]

/-- Byte `j` of the restoration is byte `restoreIdx len j` of the input. -/
theorem restore_getElem (l : List ℕ) (j : ℕ) (hj : j < l.length) :
    (restorePrevHashByteOrder l)[j]? = some (l.getD (restoreIdx l.length j) 0) := by
  simp [restorePrevHashByteOrder, List.getElem?_map, List.getElem?_range, hj]

/-- On the index range of a 32-byte input the index map of the
restoration is an involution. -/
theorem restoreIdx32 : ∀ j < 32, restoreIdx 32 j < 32 ∧
    restoreIdx 32 (restoreIdx 32 j) = j := by decide

/-- C7: `restorePrevHashByteOrder` is an involution on 32-byte inputs. -/
theorem restorePrevHash_involution :
    ∀ l : List ℕ, l.length = 32 →
      restorePrevHashByteOrder (restorePrevHashByteOrder l) = l := by
  intro l hl
  have h1 : (restorePrevHashByteOrder l).length = 32 := by rw [restore_length, hl]
  apply List.ext_getElem?
  intro j
  by_cases hj : j < 32
  · have hjl : j < l.length := by rw [hl]; exact hj
    have hj1 : j < (restorePrevHashByteOrder l).length := by rw [h1]; exact hj
    have hlt := (restoreIdx32 j hj).1
    rw [restore_getElem _ j hj1, h1, List.getD_eq_getElem?_getD,
      restore_getElem l _ (by rw [hl]; exact hlt), hl, (restoreIdx32 j hj).2,
      List.getElem?_eq_getElem hjl]
    simp [List.getD_eq_getElem?_getD, List.getElem?_eq_getElem hjl]
  · rw [List.getElem?_eq_none, List.getElem?_eq_none]
    · rw [hl]; omega
    · rw [restore_length, restore_length, hl]; omega

/-- Witness for `restorePrevHash_involution` on the bytes `0 .. 31`. -/
theorem restorePrevHash_involution_witness :
    restorePrevHashByteOrder (restorePrevHashByteOrder (List.range 32)) =
      List.range 32 :=
  restorePrevHash_involution (List.range 32) (by decide)

/-! ## Theorems for the ntime round-trip (C8) -/

/-- C8: if the wire `ntime` hex decodes to `bs`, the job stores the
reversed bytes, and the `Ntime` field of any share the job emits —
`newShare` reverses the stored bytes again and hex-encodes — is the hex
encoding of the original wire bytes `bs`. -/
theorem ntime_roundtrip :
    ∀ (s : List Char) (bs : List ℕ), hexDecode s = some bs →
      jobNtime s = some (reverseBytesCopy bs) ∧
      (jobNtime s).map shareNtime = some (hexEncode bs) := by
  intro s bs h
  have h1 : jobNtime s = some (reverseBytesCopy bs) := by rw [jobNtime, h]; rfl
  refine ⟨h1, ?_⟩
  rw [h1]
  show some (shareNtime (reverseBytesCopy bs)) = some (hexEncode bs)
  rw [shareNtime, reverseBytesCopy, reverseBytesCopy, List.reverse_reverse]

/-- Witness for `ntime_roundtrip` on the wire string `"1a2b"`. -/
theorem ntime_roundtrip_witness :
    (jobNtime ['1', 'a', '2', 'b']).map shareNtime = some (hexEncode [26, 43]) :=
  (ntime_roundtrip ['1', 'a', '2', 'b'] [26, 43] (by decide)).2

/-! ## Theorem for the submit-response dispatch (C9) -/

/-- C9: the handling of a `mining.submit` response is determined solely by
the error code — code 21 rebuilds a job from the latest remembered params,
any other code resumes the current job, and a response without an error
triggers neither. -/
theorem handleSubmit_by_code :
    (∀ (result : Bool) (code : ℕ) (msg : String),
      handleSubmitResponse result (some (code, msg)) =
        if code = errCodeJobNotFound then SubmitAction.newJobFromLatest
        else SubmitAction.continueJob) ∧
    (∀ result : Bool, handleSubmitResponse result none = SubmitAction.noAction) ∧
    (∀ (r1 r2 : Bool) (e : Option (ℕ × String)),
      handleSubmitResponse r1 e = handleSubmitResponse r2 e) := by
  refine ⟨fun _ _ _ => rfl, fun _ => rfl, fun r1 r2 e => ?_⟩
  cases e with
  | none => rfl
  | some p => rfl

end BTCMiner
